import Mathlib

/-
Shallow embedding of the payment-tracker web application.

Data model and operations are translated from the repository sources:
  - src/supabase-schema.sql                (tables, enumerations, foreign keys)
  - src/components/BatchPayment.tsx        (batch items, toggleRequest, totalAmount,
                                            vendorSummary, processBatch, handleCancel)
  - src/components/CalculatorInput.tsx     (calculate, handleNumberInput,
                                            handleOperator, handleEquals, handleClear)
  - src/components/DashboardSummary.tsx    (totalAmount, cardTotal, cashTotal)
  - src/app/vendor/[token]/page.tsx        (deleteRequest, the same three totals)
  - src/unnamed/part_003 (PaymentRequestForm)  (payer submission insert)
  - src/components/TransactionList.tsx     (handleDelete on transactions)

Conventions of the embedding:
  - Monetary amounts are modelled as exact rationals.  The database column is
    DECIMAL(10,2) and every quantity the claims mention is an exact decimal;
    the JavaScript double representation is abstracted away.
  - UUID identities are modelled as Nat for rows generated by the store
    (transactions, payment requests) and String for vendor identities.
    Fresh transaction identities come from a counter nextTxId in the store
    state, mirroring gen_random_uuid freshness.
  - Remote writes that can fail are modelled by pairing each batch item with
    a Bool telling whether its insert succeeds, since the outcome of a remote
    insert is an input to the control flow of processBatch.
  - created_at and updated_at timestamps, and display-only state such as
    showExpression, are omitted: no claim mentions them.
-/

namespace PaymentTracker

/-- Payment method enumeration, from the CHECK constraint on
transactions.payment_method in src/supabase-schema.sql. -/
inductive PaymentMethod where
  | card
  | cash
  | other
deriving DecidableEq, Repr

/-- Payment request status enumeration, from the CHECK constraint on
payment_requests.status in src/supabase-schema.sql. -/
inductive ReqStatus where
  | pending
  | completed
  | cancelled
deriving DecidableEq, Repr

/-- Row of the transactions table (timestamps omitted). -/
structure Transaction where
  id : Nat
  vendor_id : String
  amount : ℚ
  description : Option String
  payment_method : PaymentMethod
deriving DecidableEq, Repr

/-- Row of the payment_requests table (timestamps omitted). -/
structure PaymentRequest where
  id : Nat
  vendor_id : String
  amount : ℚ
  payer_name : String
  status : ReqStatus
  processed_transaction_id : Option Nat
deriving DecidableEq, Repr

/-- Vendor row; only the fields the embedded operations read. -/
structure Vendor where
  id : String
  name : String
deriving DecidableEq, Repr

/-- Batch item variant tag, from the type field of interface BatchItem in
src/components/BatchPayment.tsx. -/
inductive ItemType where
  | request
  | manual
deriving DecidableEq, Repr

/-- Interface BatchItem from src/components/BatchPayment.tsx.  requestId is
present only for request-backed items (Option models the optional field). -/
structure BatchItem where
  id : String
  type : ItemType
  vendorId : String
  vendorName : String
  amount : ℚ
  payerName : String
  requestId : Option Nat
deriving DecidableEq, Repr

/-- State of the remote store: the two tables the claims are about, plus a
counter supplying fresh transaction identities. -/
structure DB where
  transactions : List Transaction
  requests : List PaymentRequest
  nextTxId : Nat
deriving DecidableEq, Repr

/-- The empty store. -/
def initDB : DB := ⟨[], [], 0⟩

/-- getVendorName from src/components/BatchPayment.tsx lines 45-47:
vendors.find by id, defaulting to "Unknown". -/
def getVendorName (vendors : List Vendor) (vendorId : String) : String :=
  ((vendors.find? (fun v => v.id == vendorId)).map Vendor.name).getD "Unknown"

/-- isRequestInBatch from src/components/BatchPayment.tsx lines 59-61:
some item stores the given request id. -/
def isRequestInBatch (items : List BatchItem) (requestId : Nat) : Bool :=
  items.any (fun item => item.requestId == some requestId)

/-- The batch item built for a request in the else branch of toggleRequest,
src/components/BatchPayment.tsx lines 67-75. -/
def mkRequestItem (vendors : List Vendor) (r : PaymentRequest) : BatchItem :=
  { id := "req-" ++ toString r.id
    type := ItemType.request
    vendorId := r.vendor_id
    vendorName := getVendorName vendors r.vendor_id
    amount := r.amount
    payerName := r.payer_name
    requestId := some r.id }

/-- toggleRequest from src/components/BatchPayment.tsx lines 63-77: if the
request is in the batch, drop every item storing its id, otherwise append
the item built from the request. -/
def toggleRequest (vendors : List Vendor) (items : List BatchItem)
    (r : PaymentRequest) : List BatchItem :=
  if isRequestInBatch items r.id then
    items.filter (fun item => item.requestId != some r.id)
  else
    items ++ [mkRequestItem vendors r]

/-- removeFromBatch from src/components/BatchPayment.tsx lines 97-99. -/
def removeFromBatch (items : List BatchItem) (id : String) : List BatchItem :=
  items.filter (fun item => item.id != id)

/-- totalAmount from src/components/BatchPayment.tsx line 101:
batchItems.reduce((sum, item) => sum + item.amount, 0). -/
def totalAmount (items : List BatchItem) : ℚ :=
  items.foldl (fun sum item => sum + item.amount) 0

/-- One step of the vendorSummary reduce in src/components/BatchPayment.tsx
lines 109-113: an association list keyed by vendor name.  A missing key is
initialised to 0 and then incremented, which is the same as inserting the
amount; an existing key is incremented in place. -/
def addVendorAmount (acc : List (String × ℚ)) (item : BatchItem) :
    List (String × ℚ) :=
  if acc.any (fun p => p.1 == item.vendorName) then
    acc.map (fun p => if p.1 == item.vendorName then (p.1, p.2 + item.amount) else p)
  else
    acc ++ [(item.vendorName, item.amount)]

/-- vendorSummary from src/components/BatchPayment.tsx lines 109-113:
per-vendor-name sums of item amounts, used for the batch description. -/
def vendorSummary (items : List BatchItem) : List (String × ℚ) :=
  items.foldl addVendorAmount []

/-- Sum of the values of a keyed sum list. -/
def sumValues (l : List (String × ℚ)) : ℚ := (l.map Prod.snd).sum

/-- The transaction row inserted for one batch item in processBatch,
src/components/BatchPayment.tsx lines 121-130: the item vendor and amount,
the chosen method, and the description "Payment from the payer name". -/
def mkTransaction (txId : Nat) (pm : PaymentMethod) (item : BatchItem) :
    Transaction :=
  { id := txId
    vendor_id := item.vendorId
    amount := item.amount
    description := some ("Payment from " ++ item.payerName)
    payment_method := pm }

/-- The insert of src/components/BatchPayment.tsx lines 121-130 on success:
the new row is appended and a fresh identity is consumed. -/
def insertTransaction (pm : PaymentMethod) (item : BatchItem) (db : DB) :
    Transaction × DB :=
  let tx := mkTransaction db.nextTxId pm item
  (tx, { db with transactions := db.transactions ++ [tx],
                 nextTxId := db.nextTxId + 1 })

/-- The row-level effect of the payment_requests update in
src/components/BatchPayment.tsx lines 139-147: rows matching the id get
status completed and the new transaction identity, together. -/
def completeRow (rid txId : Nat) (r : PaymentRequest) : PaymentRequest :=
  if r.id == rid then
    { r with status := ReqStatus.completed, processed_transaction_id := some txId }
  else r

/-- The payment_requests update of src/components/BatchPayment.tsx
lines 139-147 applied to the store. -/
def completeRequest (rid txId : Nat) (db : DB) : DB :=
  { db with requests := db.requests.map (completeRow rid txId) }

/-- One successful iteration of the processBatch loop,
src/components/BatchPayment.tsx lines 120-148: the transaction is inserted
and, when the item is request-backed, the originating request is updated
with the identity of the row just created. -/
def commitItem (pm : PaymentMethod) (item : BatchItem) (db : DB) : DB :=
  let inserted := insertTransaction pm item db
  match item.type, item.requestId with
  | ItemType.request, some rid => completeRequest rid inserted.1.id inserted.2
  | _, _ => inserted.2

/-- The per-item loop of processBatch, src/components/BatchPayment.tsx
lines 120-148.  Each item is paired with the outcome of its remote insert:
on failure the loop logs and continues with the next item (lines 132-135);
on success the item is committed. -/
def runBatch (pm : PaymentMethod) : List (BatchItem × Bool) → DB → DB
  | [], db => db
  | (item, ok) :: rest, db =>
    if ok then runBatch pm rest (commitItem pm item db)
    else runBatch pm rest db

/-- processBatch from src/components/BatchPayment.tsx lines 103-154:
an empty batch is a no-op (line 104), otherwise the per-item loop runs. -/
def processBatch (pm : PaymentMethod) (l : List (BatchItem × Bool)) (db : DB) :
    DB :=
  if l.isEmpty then db else runBatch pm l db

/-- handleCancel from src/components/BatchPayment.tsx lines 457-477
(operator cancellation): the update sets status cancelled on rows matching
the id; the row is kept. -/
def handleCancel (rid : Nat) (db : DB) : DB :=
  { db with requests := db.requests.map fun r =>
      if r.id == rid then { r with status := ReqStatus.cancelled } else r }

/-- deleteRequest from src/app/vendor/[token]/page.tsx lines 122-131
(payer cancellation): the row matching the id is deleted outright. -/
def deleteRequest (rid : Nat) (db : DB) : DB :=
  { db with requests := db.requests.filter (fun r => r.id != rid) }

/-- The payer submission insert of PaymentRequestForm
(src/unnamed/part_003): a new request with the given vendor, amount and
payer name; status defaults to pending and processed_transaction_id to
null per src/supabase-schema.sql. -/
def submitRequest (rid : Nat) (vendorId : String) (amount : ℚ)
    (payerName : String) (db : DB) : DB :=
  let newRow : PaymentRequest :=
    { id := rid, vendor_id := vendorId, amount := amount,
      payer_name := payerName, status := ReqStatus.pending,
      processed_transaction_id := none }
  { db with requests := db.requests ++ [newRow] }

/-- handleDelete from src/components/TransactionList.tsx together with the
foreign key payment_requests.processed_transaction_id REFERENCES
transactions(id) ON DELETE SET NULL from src/supabase-schema.sql: the
transaction row is removed and every request referencing it keeps its row
and status but has the reference set to null. -/
def setNullRow (txId : Nat) (r : PaymentRequest) : PaymentRequest :=
  if r.processed_transaction_id == some txId then
    { r with processed_transaction_id := none }
  else r

def deleteTransaction (txId : Nat) (db : DB) : DB :=
  { db with
      transactions := db.transactions.filter (fun t => t.id != txId),
      requests := db.requests.map (setNullRow txId) }

/-- Spec-side description of the transactions created by an all-success
commit: one per item, in order, with consecutive fresh identities.  Used to
state the commit claims; compared against the processBatch embedding. -/
def mkTxsFrom (pm : PaymentMethod) : Nat → List BatchItem → List Transaction
  | _, [] => []
  | n, item :: rest => mkTransaction n pm item :: mkTxsFrom pm (n + 1) rest

/-- Request ids referenced by the request-backed items of a batch, in
order. -/
def refIds : List BatchItem → List Nat
  | [] => []
  | item :: rest =>
    match item.type, item.requestId with
    | ItemType.request, some rid => rid :: refIds rest
    | _, _ => refIds rest

/-- Spec-side description of the request completions performed by an
all-success commit: each request-backed item maps its request id to the
identity of the transaction created for that item. -/
def completionsFrom : Nat → List BatchItem → List (Nat × Nat)
  | _, [] => []
  | n, item :: rest =>
    match item.type, item.requestId with
    | ItemType.request, some rid => (rid, n) :: completionsFrom (n + 1) rest
    | _, _ => completionsFrom (n + 1) rest

/-- Apply a completion map to one request row: a mapped row becomes
completed with the recorded transaction identity, any other row is
unchanged. -/
def applyCompletions (m : List (Nat × Nat)) (r : PaymentRequest) :
    PaymentRequest :=
  match m.lookup r.id with
  | some txId =>
    { r with status := ReqStatus.completed, processed_transaction_id := some txId }
  | none => r

/-- Operator type from src/components/CalculatorInput.tsx line 13. -/
inductive CalcOp where
  | add
  | sub
  | mul
  | div
deriving DecidableEq, Repr

/-- calculate from src/components/CalculatorInput.tsx lines 38-46; the
division case returns 0 when the divisor is 0. -/
def calculate (num1 : ℚ) (op : CalcOp) (num2 : ℚ) : ℚ :=
  match op with
  | CalcOp.add => num1 + num2
  | CalcOp.sub => num1 - num2
  | CalcOp.mul => num1 * num2
  | CalcOp.div => if num2 ≠ 0 then num1 / num2 else 0

/-- Calculator widget state from src/components/CalculatorInput.tsx lines
22-25.  currentNumber is the typed entry: none models the empty string,
some q a string parsing to q (the entry string "0" is truthy in the source,
so some 0 and none are distinguished exactly as the source distinguishes
"0" from "").  Display-only state is omitted. -/
structure CalcState where
  currentNumber : Option ℚ
  previousNumber : Option ℚ
  operator : Option CalcOp
deriving DecidableEq, Repr

/-- The initial widget state: empty entry, no pending operand or operator. -/
def initCalc : CalcState := ⟨none, none, none⟩

/-- parseFloat(s) || 0 on the entry: an empty (or unparsable) entry counts
as 0. -/
def parseOr0 (s : Option ℚ) : ℚ := s.getD 0

/-- handleNumberInput from src/components/CalculatorInput.tsx lines 58-83:
the entry is replaced; with a pending operator and left operand the widget
emits the collapsed value of the pending expression, otherwise the plain
parsed entry.  The emitted onChange value is returned beside the state. -/
def handleNumberInput (entry : Option ℚ) (s : CalcState) : CalcState × ℚ :=
  let s2 := { s with currentNumber := entry }
  match s.operator, s.previousNumber with
  | some op, some prev => (s2, calculate prev op (parseOr0 entry))
  | _, _ => (s2, parseOr0 entry)

/-- handleOperator from src/components/CalculatorInput.tsx lines 85-106:
with a pending operator, a left operand and a nonempty entry, the pending
expression is collapsed into a new left operand and emitted; otherwise the
parsed entry becomes the left operand and nothing is emitted.  In both
branches the entry is cleared and the new operator stored. -/
def handleOperator (op : CalcOp) (s : CalcState) : CalcState × Option ℚ :=
  let currentNum := parseOr0 s.currentNumber
  match s.operator, s.previousNumber, s.currentNumber with
  | some op0, some prev, some _ =>
    let result := calculate prev op0 currentNum
    (⟨none, some result, some op⟩, some result)
  | _, _, _ => (⟨none, some currentNum, some op⟩, none)

/-- handleEquals from src/components/CalculatorInput.tsx lines 108-123:
with a pending operator and left operand, the expression is collapsed, the
result becomes the entry, the pending state is cleared, and the result is
emitted; otherwise nothing happens. -/
def handleEquals (s : CalcState) : CalcState × Option ℚ :=
  match s.operator, s.previousNumber with
  | some op, some prev =>
    let result := calculate prev op (parseOr0 s.currentNumber)
    (⟨some result, none, none⟩, some result)
  | _, _ => (s, none)

/-- handleClear from src/components/CalculatorInput.tsx lines 125-132:
everything reset, 0 emitted. -/
def handleClear (_ : CalcState) : CalcState × Option ℚ :=
  (⟨none, none, none⟩, some 0)

/-- Keystroke events of the calculator widget. -/
inductive CalcEvent where
  | num (entry : Option ℚ)
  | op (o : CalcOp)
  | eq
  | clear
deriving DecidableEq, Repr

/-- One event of the widget, returning the new state and the value emitted
through onChange, if any. -/
def calcStep : CalcEvent → CalcState → CalcState × Option ℚ
  | CalcEvent.num e, s =>
    let r := handleNumberInput e s
    (r.1, some r.2)
  | CalcEvent.op o, s => handleOperator o s
  | CalcEvent.eq, s => handleEquals s
  | CalcEvent.clear, s => handleClear s

/-- Run a list of events, collecting every emitted onChange value in
order. -/
def runCalc : List CalcEvent → CalcState → CalcState × List ℚ
  | [], s => (s, [])
  | e :: es, s =>
    let r := calcStep e s
    let rest := runCalc es r.1
    (rest.1, r.2.toList ++ rest.2)

/-- totalAmount of src/components/DashboardSummary.tsx line 12 (the same
reduction appears in src/app/vendor/[token]/page.tsx line 133). -/
def dashTotal (ts : List Transaction) : ℚ :=
  ts.foldl (fun sum t => sum + t.amount) 0

/-- cardTotal of src/components/DashboardSummary.tsx lines 13-15. -/
def cardTotal (ts : List Transaction) : ℚ :=
  dashTotal (ts.filter (fun t => t.payment_method == PaymentMethod.card))

/-- cashTotal of src/components/DashboardSummary.tsx lines 16-18. -/
def cashTotal (ts : List Transaction) : ℚ :=
  dashTotal (ts.filter (fun t => t.payment_method == PaymentMethod.cash))

/-- The subtotal of the remaining method, not displayed by the dashboard
but determined by the same reduction over the other-method rows. -/
def otherTotal (ts : List Transaction) : ℚ :=
  dashTotal (ts.filter (fun t => t.payment_method == PaymentMethod.other))

/-- One operation of the program on the remote store, as the claims about
request lifecycle name them: payer submission (PaymentRequestForm), operator
cancellation (handleCancel, which the interface invokes only on requests
rendered from the pending filter, hence the side condition), batch commit
(processBatch, with arbitrary items and per-item insert outcomes), and
transaction deletion with its set-null foreign key. -/
inductive Step : DB → DB → Prop where
  | submit (db : DB) (rid : Nat) (vendorId : String) (amount : ℚ)
      (payerName : String)
      (hfresh : ∀ r ∈ db.requests, r.id ≠ rid) :
      Step db (submitRequest rid vendorId amount payerName db)
  | cancel (db : DB) (rid : Nat)
      (hpending : ∀ r ∈ db.requests, r.id = rid → r.status = ReqStatus.pending) :
      Step db (handleCancel rid db)
  | commit (db : DB) (pm : PaymentMethod) (l : List (BatchItem × Bool)) :
      Step db (processBatch pm l db)
  | deleteTx (db : DB) (txId : Nat) :
      Step db (deleteTransaction txId db)

/-- Store states reachable from the empty store by the request-lifecycle
operations. -/
inductive Reachable : DB → Prop where
  | init : Reachable initDB
  | step {a b : DB} : Reachable a → Step a b → Reachable b

/-- The forward half of the spec invariant on payment requests: a non-null
processed_transaction_id only appears on completed rows. -/
def ReqInvariant (db : DB) : Prop :=
  ∀ r ∈ db.requests, r.processed_transaction_id ≠ none →
    r.status = ReqStatus.completed

/-- Concrete store used to settle the claim about payer cancellation: one
pending request with id 0. -/
def c3db : DB :=
  ⟨[], [⟨0, "v1", 5, "pat", ReqStatus.pending, none⟩], 0⟩

/-- Concrete store with one pending request, for witnesses about the batch
commit. -/
def sampleDb : DB :=
  ⟨[], [⟨7, "vA", 3, "al", ReqStatus.pending, none⟩], 0⟩

/-- Concrete batch: one request-backed item for the request of sampleDb and
one manual item. -/
def sampleItems : List BatchItem :=
  [⟨"req-7", ItemType.request, "vA", "A", 3, "al", some 7⟩,
   ⟨"manual-1", ItemType.manual, "vB", "B", 4, "bo", none⟩]

/-- Concrete store with one cancelled request, for the claim about terminal
statuses. -/
def c4db : DB :=
  ⟨[], [⟨3, "v1", 5, "pat", ReqStatus.cancelled, none⟩], 0⟩

/-- Batch item referencing the cancelled request of c4db. -/
def c4item : BatchItem :=
  ⟨"req-3", ItemType.request, "v1", "V1", 5, "pat", some 3⟩

/-- Batch item referencing the (pending) request id 0 created by the first
step of the reachability trace below. -/
def c2item : BatchItem :=
  ⟨"req-0", ItemType.request, "v1", "V1", 5, "pat", some 0⟩

/-- A reachable store in which a request was completed by a batch commit
and the fulfilling transaction was then deleted. -/
def c2trace : DB :=
  deleteTransaction 0
    (processBatch PaymentMethod.card [(c2item, true)]
      (submitRequest 0 "v1" 5 "pat" initDB))

/--
C6: with a pending operator and left operand, applying a second operator
first collapses the pending expression (left operand, pending operator,
current operand) into a new left operand, so chains evaluate strictly
left-to-right with no precedence; entering 10, +, 5, ×, 2 evaluates to 30,
not 20.
-/
theorem operator_chains_evaluate_left_to_right :
    (∀ (p c : ℚ) (op0 op1 : CalcOp),
      handleOperator op1 ⟨some c, some p, some op0⟩ =
        (⟨none, some (calculate p op0 c), some op1⟩, some (calculate p op0 c))) ∧
    (∀ x y z : ℚ,
      (runCalc [CalcEvent.num (some x), CalcEvent.op CalcOp.add,
                CalcEvent.num (some y), CalcEvent.op CalcOp.mul,
                CalcEvent.num (some z), CalcEvent.eq] initCalc).2.getLast?
        = some ((x + y) * z)) ∧
    (runCalc [CalcEvent.num (some 10), CalcEvent.op CalcOp.add,
              CalcEvent.num (some 5), CalcEvent.op CalcOp.mul,
              CalcEvent.num (some 2), CalcEvent.eq] initCalc).2.getLast?
      = some 30 ∧
    (10 + 5 * 2 : ℚ) = 20 ∧ (30 : ℚ) ≠ 20 := by
  have gen : ∀ x y z : ℚ,
      (runCalc [CalcEvent.num (some x), CalcEvent.op CalcOp.add,
                CalcEvent.num (some y), CalcEvent.op CalcOp.mul,
                CalcEvent.num (some z), CalcEvent.eq] initCalc).2.getLast?
        = some ((x + y) * z) := fun x y z => rfl
  refine ⟨fun p c op0 op1 => rfl, gen, (gen 10 5 2).trans (by norm_num),
    by norm_num, by norm_num⟩

/--
C7: for every left operand x, evaluating x ÷ 0 yields the value 0 rather
than an error, in all evaluation paths: the calculate helper itself, the
live preview emitted on a keystroke, equals (with the entry "0" or empty),
and operator chaining.
-/
theorem division_by_zero_yields_zero (x : ℚ) :
    calculate x CalcOp.div 0 = 0 ∧
    (handleNumberInput (some 0) ⟨none, some x, some CalcOp.div⟩).2 = 0 ∧
    (handleEquals ⟨some 0, some x, some CalcOp.div⟩).2 = some 0 ∧
    (handleEquals ⟨none, some x, some CalcOp.div⟩).2 = some 0 ∧
    (handleOperator CalcOp.add ⟨some 0, some x, some CalcOp.div⟩).2 = some 0 := by
  refine ⟨?_, ?_, ?_, ?_, ?_⟩ <;>
    simp [calculate, handleNumberInput, handleEquals, handleOperator, parseOr0]

/--
C3 counterexample: the claim says a payer cancelling a pending request from
the public vendor page leaves the row in place with status cancelled, just
as in the operator path.  On the concrete store with one pending request,
the payer path (deleteRequest) removes the row entirely, while the operator
path (handleCancel) is the one that keeps it with status cancelled.
-/
theorem payer_cancel_deletes_row_counterexample :
    c3db.requests.map (fun r => (r.id, r.status)) = [(0, ReqStatus.pending)] ∧
    (deleteRequest 0 c3db).requests = [] ∧
    (handleCancel 0 c3db).requests.map (fun r => (r.id, r.status))
      = [(0, ReqStatus.cancelled)] := by
  decide

/--
C3 amended: when a payer cancels one of their pending payment requests from
the public vendor page, the request row is deleted outright — afterwards no
row with that id exists; only the operator cancellation path keeps the row
and changes its status to cancelled.
-/
theorem payer_cancel_removes_row (rid : Nat) (db : DB) :
    (∀ r : PaymentRequest,
      r ∈ (deleteRequest rid db).requests ↔ (r ∈ db.requests ∧ r.id ≠ rid)) ∧
    (handleCancel rid db).requests.length = db.requests.length ∧
    (∀ r ∈ db.requests, r.id = rid →
      { r with status := ReqStatus.cancelled } ∈ (handleCancel rid db).requests) := by
  refine ⟨?_, ?_, ?_⟩
  · intro r
    simp [deleteRequest, List.mem_filter, bne_iff_ne]
  · simp [handleCancel]
  · intro r hr hid
    exact List.mem_map.mpr ⟨r, hr, by simp [hid]⟩

/-- Witness for the amended payer-cancellation theorem at the concrete
store. -/
theorem payer_cancel_removes_row_witness :
    ({ (⟨0, "v1", 5, "pat", ReqStatus.pending, none⟩ : PaymentRequest) with
        status := ReqStatus.cancelled } ∈ (handleCancel 0 c3db).requests) :=
  (payer_cancel_removes_row 0 c3db).2.2 _ (by decide) rfl

theorem runBatch_cons_true (pm : PaymentMethod) (item : BatchItem)
    (rest : List (BatchItem × Bool)) (db : DB) :
    runBatch pm ((item, true) :: rest) db =
      runBatch pm rest (commitItem pm item db) := rfl

theorem runBatch_cons_false (pm : PaymentMethod) (item : BatchItem)
    (rest : List (BatchItem × Bool)) (db : DB) :
    runBatch pm ((item, false) :: rest) db = runBatch pm rest db := rfl

theorem commitItem_req (pm : PaymentMethod) (item : BatchItem) (db : DB)
    (rid : Nat) (ht : item.type = ItemType.request)
    (hrid : item.requestId = some rid) :
    commitItem pm item db =
      ⟨db.transactions ++ [mkTransaction db.nextTxId pm item],
       db.requests.map (completeRow rid db.nextTxId),
       db.nextTxId + 1⟩ := by
  simp [commitItem, insertTransaction, completeRequest, ht, hrid, mkTransaction]

theorem commitItem_req_none (pm : PaymentMethod) (item : BatchItem) (db : DB)
    (ht : item.type = ItemType.request) (hrid : item.requestId = none) :
    commitItem pm item db =
      ⟨db.transactions ++ [mkTransaction db.nextTxId pm item],
       db.requests, db.nextTxId + 1⟩ := by
  simp [commitItem, insertTransaction, ht, hrid]

theorem commitItem_manual (pm : PaymentMethod) (item : BatchItem) (db : DB)
    (ht : item.type = ItemType.manual) :
    commitItem pm item db =
      ⟨db.transactions ++ [mkTransaction db.nextTxId pm item],
       db.requests, db.nextTxId + 1⟩ := by
  rcases hrid : item.requestId with _ | rid <;>
    simp [commitItem, insertTransaction, ht, hrid]

theorem commitItem_transactions (pm : PaymentMethod) (item : BatchItem)
    (db : DB) :
    (commitItem pm item db).transactions =
      db.transactions ++ [mkTransaction db.nextTxId pm item] := by
  rcases ht : item.type
  · rcases hrid : item.requestId with _ | rid
    · rw [commitItem_req_none pm item db ht hrid]
    · rw [commitItem_req pm item db rid ht hrid]
  · rw [commitItem_manual pm item db ht]

theorem lookup_eq_none_of_not_mem_keys {m : List (Nat × Nat)} {k : Nat}
    (h : k ∉ m.map Prod.fst) : m.lookup k = none := by
  induction m with
  | nil => rfl
  | cons p m ih =>
    rcases p with ⟨a, b⟩
    simp only [List.map_cons, List.mem_cons, not_or] at h
    have hk : (k == a) = false := beq_eq_false_iff_ne.mpr h.1
    simp [List.lookup, hk, ih h.2]

theorem completionsFrom_keys (items : List BatchItem) :
    ∀ n, (completionsFrom n items).map Prod.fst = refIds items := by
  induction items with
  | nil => intro n; rfl
  | cons item rest ih =>
    intro n
    rcases htype : item.type <;> rcases hrid : item.requestId with _ | rid <;>
      simp [completionsFrom, refIds, htype, hrid, ih]

theorem applyCompletions_cons {rid t : Nat} {m : List (Nat × Nat)}
    (h : rid ∉ m.map Prod.fst) (r : PaymentRequest) :
    applyCompletions ((rid, t) :: m) r =
      applyCompletions m (completeRow rid t r) := by
  by_cases hid : r.id = rid
  · have hbeq : (r.id == rid) = true := beq_iff_eq.mpr hid
    simp [applyCompletions, completeRow, List.lookup, hbeq, hid,
      lookup_eq_none_of_not_mem_keys h]
  · have hbeq : (r.id == rid) = false := beq_eq_false_iff_ne.mpr hid
    simp [applyCompletions, completeRow, List.lookup, hbeq]

theorem runBatch_allTrue (pm : PaymentMethod) (items : List BatchItem)
    (db : DB) (hnd : (refIds items).Nodup) :
    runBatch pm (items.map (fun it => (it, true))) db =
      ⟨db.transactions ++ mkTxsFrom pm db.nextTxId items,
       db.requests.map (applyCompletions (completionsFrom db.nextTxId items)),
       db.nextTxId + items.length⟩ := by
  induction items generalizing db with
  | nil =>
    have hid : applyCompletions ([] : List (Nat × Nat)) = id :=
      funext fun r => rfl
    simp [runBatch, mkTxsFrom, completionsFrom, hid]
  | cons item rest ih =>
    rcases htype : item.type
    · rcases hrid : item.requestId with _ | rid
      · have hnd2 : (refIds rest).Nodup := by
          simpa [refIds, htype, hrid] using hnd
        simp only [List.map_cons, runBatch_cons_true,
          commitItem_req_none pm item db htype hrid, ih _ hnd2]
        simp [mkTxsFrom, completionsFrom, htype, hrid, DB.mk.injEq]
        omega
      · have hnd1 : refIds (item :: rest) = rid :: refIds rest := by
          simp [refIds, htype, hrid]
        rw [hnd1] at hnd
        obtain ⟨hnotin, hnd2⟩ := List.nodup_cons.mp hnd
        have hkeys : rid ∉ (completionsFrom (db.nextTxId + 1) rest).map Prod.fst := by
          rw [completionsFrom_keys]; exact hnotin
        simp only [List.map_cons, runBatch_cons_true,
          commitItem_req pm item db rid htype hrid, ih _ hnd2]
        refine DB.mk.injEq .. ▸ ?_
        refine ⟨by simp [mkTxsFrom], ?_, by simp; omega⟩
        rw [List.map_map]
        have hcomp : completionsFrom db.nextTxId (item :: rest) =
            (rid, db.nextTxId) :: completionsFrom (db.nextTxId + 1) rest := by
          simp [completionsFrom, htype, hrid]
        rw [hcomp]
        refine (List.map_congr_left ?_).symm
        intro r _
        exact applyCompletions_cons hkeys r
    · have hnd2 : (refIds rest).Nodup := by
        simpa [refIds, htype] using hnd
      simp only [List.map_cons, runBatch_cons_true,
        commitItem_manual pm item db htype, ih _ hnd2]
      simp [mkTxsFrom, completionsFrom, htype, DB.mk.injEq]
      omega

theorem runBatch_skip_general (pm : PaymentMethod) (item : BatchItem)
    (l1 l2 : List (BatchItem × Bool)) (db : DB) :
    runBatch pm (l1 ++ (item, false) :: l2) db = runBatch pm (l1 ++ l2) db := by
  induction l1 generalizing db with
  | nil => rfl
  | cons p l1 ih =>
    rcases p with ⟨a, ok⟩
    cases ok
    · simpa [runBatch_cons_false] using ih db
    · simpa [runBatch_cons_true] using ih (commitItem pm a db)

theorem runBatch_transactions_mono (pm : PaymentMethod)
    (l : List (BatchItem × Bool)) (db : DB) :
    ∃ s, (runBatch pm l db).transactions = db.transactions ++ s := by
  induction l generalizing db with
  | nil => exact ⟨[], by simp [runBatch]⟩
  | cons p rest ih =>
    rcases p with ⟨a, ok⟩
    cases ok
    · simpa [runBatch_cons_false] using ih db
    · obtain ⟨s, hs⟩ := ih (commitItem pm a db)
      refine ⟨[mkTransaction db.nextTxId pm a] ++ s, ?_⟩
      rw [runBatch_cons_true, hs, commitItem_transactions]
      simp

theorem mem_requests_commitItem (pm : PaymentMethod) (item : BatchItem)
    (db : DB) (r : PaymentRequest) (hr : r ∈ db.requests)
    (h : item.type = ItemType.request → item.requestId ≠ some r.id) :
    r ∈ (commitItem pm item db).requests := by
  rcases htype : item.type
  · rcases hrid : item.requestId with _ | rid
    · rw [commitItem_req_none pm item db htype hrid]; exact hr
    · rw [commitItem_req pm item db rid htype hrid]
      have hne : ¬(r.id = rid) := by
        intro e
        exact h htype (by rw [hrid, e])
      exact List.mem_map.mpr ⟨r, hr, by simp [completeRow, hne]⟩
  · rw [commitItem_manual pm item db htype]; exact hr

theorem runBatch_preserves_request (pm : PaymentMethod)
    (l : List (BatchItem × Bool)) (db : DB) (r : PaymentRequest)
    (hr : r ∈ db.requests)
    (h : ∀ p ∈ l, p.2 = true → p.1.type = ItemType.request →
      p.1.requestId ≠ some r.id) :
    r ∈ (runBatch pm l db).requests := by
  induction l generalizing db with
  | nil => exact hr
  | cons p rest ih =>
    rcases p with ⟨a, ok⟩
    cases ok
    · rw [runBatch_cons_false]
      exact ih db hr (fun q hq => h q (List.mem_cons_of_mem _ hq))
    · rw [runBatch_cons_true]
      refine ih (commitItem pm a db) ?_ (fun q hq => h q (List.mem_cons_of_mem _ hq))
      exact mem_requests_commitItem pm a db r hr
        (fun ht => h (a, true) (List.mem_cons_self _ _) rfl ht)

theorem mem_refIds_of_item (items : List BatchItem) (item : BatchItem)
    (rid : Nat) (hmem : item ∈ items) (ht : item.type = ItemType.request)
    (hrid : item.requestId = some rid) : rid ∈ refIds items := by
  induction items with
  | nil => cases hmem
  | cons a rest ih =>
    rcases List.mem_cons.mp hmem with h | h
    · subst h
      simp [refIds, ht, hrid]
    · rcases htype : a.type <;> rcases hr : a.requestId with _ | rid2 <;>
        simp [refIds, htype, hr, ih h]

/--
C1: for every non-empty batch and method, an all-success commit extends the
transaction table with exactly one transaction per batch item, in order,
carrying the item vendor, amount, the chosen method and the description
"Payment from the payer name" (the content of mkTxsFrom); every request row
matched by a request-backed item becomes completed with
processed_transaction_id equal to the identity of the transaction created
for that item (the content of completionsFrom and applyCompletions); and a
request not referenced by any request-backed item — in particular any
request, when only manual items are present — is left unchanged.  The
batch is assumed to reference each request at most once, which is how
toggleRequest builds batches.
-/
theorem commit_creates_transactions_and_completes_requests
    (pm : PaymentMethod) (items : List BatchItem) (db : DB)
    (hne : items ≠ []) (hnd : (refIds items).Nodup) :
    processBatch pm (items.map (fun it => (it, true))) db =
      ⟨db.transactions ++ mkTxsFrom pm db.nextTxId items,
       db.requests.map (applyCompletions (completionsFrom db.nextTxId items)),
       db.nextTxId + items.length⟩ ∧
    (∀ r ∈ db.requests, r.id ∉ refIds items →
      r ∈ (processBatch pm (items.map (fun it => (it, true))) db).requests) := by
  have hproc : processBatch pm (items.map (fun it => (it, true))) db =
      runBatch pm (items.map (fun it => (it, true))) db := by
    cases items with
    | nil => exact absurd rfl hne
    | cons a l => rfl
  constructor
  · rw [hproc]
    exact runBatch_allTrue pm items db hnd
  · intro r hr hnotin
    rw [hproc]
    refine runBatch_preserves_request pm _ db r hr ?_
    intro p hp _ ht hrid
    obtain ⟨it, hit, hpeq⟩ := List.mem_map.mp hp
    have h1 : p.1 = it := by rw [← hpeq]
    exact hnotin (mem_refIds_of_item items it r.id hit (h1 ▸ ht) (h1 ▸ hrid))

/-- Witness for the commit claim: the concrete two-item batch (one
request-backed, one manual) over the concrete store. -/
theorem commit_creates_transactions_witness :
    sampleItems ≠ [] ∧ (refIds sampleItems).Nodup ∧
    processBatch PaymentMethod.cash (sampleItems.map (fun it => (it, true)))
        sampleDb =
      ⟨sampleDb.transactions ++
        mkTxsFrom PaymentMethod.cash sampleDb.nextTxId sampleItems,
       sampleDb.requests.map
        (applyCompletions (completionsFrom sampleDb.nextTxId sampleItems)),
       sampleDb.nextTxId + sampleItems.length⟩ :=
  ⟨by decide, by decide,
   (commit_creates_transactions_and_completes_requests PaymentMethod.cash
     sampleItems sampleDb (by decide) (by decide)).1⟩

/--
C5: a failed transaction creation for one item is non-fatal to the batch:
dropping a failed item from anywhere in the loop gives the same final store
as if the item had not been there, so every later item is still processed
and the failed item issues no write at all (in particular no
request-status update); and no prior successful write is undone — the
transaction table only ever grows by a suffix; finally, a request
referenced by no successful request-backed item is left in place unchanged.
-/
theorem commit_tolerates_item_failure :
    (∀ (pm : PaymentMethod) (item : BatchItem)
        (l1 l2 : List (BatchItem × Bool)) (db : DB),
      runBatch pm (l1 ++ (item, false) :: l2) db = runBatch pm (l1 ++ l2) db) ∧
    (∀ (pm : PaymentMethod) (l : List (BatchItem × Bool)) (db : DB),
      ∃ s, (runBatch pm l db).transactions = db.transactions ++ s) ∧
    (∀ (pm : PaymentMethod) (l : List (BatchItem × Bool)) (db : DB)
        (r : PaymentRequest), r ∈ db.requests →
      (∀ p ∈ l, p.2 = true → p.1.type = ItemType.request →
        p.1.requestId ≠ some r.id) →
      r ∈ (runBatch pm l db).requests) :=
  ⟨runBatch_skip_general, runBatch_transactions_mono, runBatch_preserves_request⟩

/-- Witness for the failure-tolerance claim: a concrete failed item between
two successful ones, and the concrete pending request of sampleDb untouched
by a batch in which the item referencing it fails. -/
theorem commit_tolerates_item_failure_witness :
    runBatch PaymentMethod.card
        ([(c4item, true)] ++ (c2item, false) :: [(c4item, true)]) sampleDb =
      runBatch PaymentMethod.card ([(c4item, true)] ++ [(c4item, true)]) sampleDb ∧
    ((⟨7, "vA", 3, "al", ReqStatus.pending, none⟩ : PaymentRequest) ∈
      (runBatch PaymentMethod.card [(⟨"req-7", ItemType.request, "vA", "A",
        3, "al", some 7⟩, false)] sampleDb).requests) :=
  ⟨commit_tolerates_item_failure.1 PaymentMethod.card c2item
      [(c4item, true)] [(c4item, true)] sampleDb,
   commit_tolerates_item_failure.2.2 PaymentMethod.card _ sampleDb _
      (by decide) (by decide)⟩

/--
C4 counterexample: the claim says a request that has reached a terminal
status is never changed again by batch commit; but the commit update
selects rows by id only, with no status guard, so committing a batch item
referencing an already-cancelled request overwrites it to completed.
-/
theorem terminal_status_overwritten_counterexample :
    c4db.requests.map PaymentRequest.status = [ReqStatus.cancelled] ∧
    (processBatch PaymentMethod.card [(c4item, true)] c4db).requests.map
        PaymentRequest.status = [ReqStatus.completed] := by
  decide

/--
C4 amended: the commit request update and the operator cancellation select
rows by id only and overwrite status unconditionally, so a request
cancelled after being added to a batch IS overwritten to completed when
its item succeeds; a terminal-status request keeps its row and status
under every commit whose batch items do not reference it and under every
operator cancellation targeting a different id.
-/
theorem terminal_status_preserved_when_untargeted
    (db : DB) (r : PaymentRequest) (hr : r ∈ db.requests)
    (_hterm : r.status = ReqStatus.completed ∨ r.status = ReqStatus.cancelled) :
    (∀ (pm : PaymentMethod) (l : List (BatchItem × Bool)),
      (∀ p ∈ l, p.1.requestId ≠ some r.id) →
      r ∈ (processBatch pm l db).requests) ∧
    (∀ rid : Nat, rid ≠ r.id → r ∈ (handleCancel rid db).requests) := by
  constructor
  · intro pm l h
    cases l with
    | nil => exact hr
    | cons p rest =>
      show r ∈ (runBatch pm (p :: rest) db).requests
      exact runBatch_preserves_request pm _ db r hr
        (fun q hq _ _ => h q hq)
  · intro rid hrid
    refine List.mem_map.mpr ⟨r, hr, ?_⟩
    have hbeq : (r.id == rid) = false :=
      beq_eq_false_iff_ne.mpr (fun e => hrid e.symm)
    simp [hbeq]

/-- Witness for the untargeted-preservation theorem: the cancelled request
of c4db survives a commit referencing a different request id and a
cancellation of a different id. -/
theorem terminal_status_preserved_witness :
    ((⟨3, "v1", 5, "pat", ReqStatus.cancelled, none⟩ : PaymentRequest) ∈
      (processBatch PaymentMethod.card [(c2item, true)] c4db).requests) ∧
    ((⟨3, "v1", 5, "pat", ReqStatus.cancelled, none⟩ : PaymentRequest) ∈
      (handleCancel 9 c4db).requests) :=
  ⟨(terminal_status_preserved_when_untargeted c4db _ (by decide)
      (Or.inr rfl)).1 PaymentMethod.card [(c2item, true)] (by decide),
   (terminal_status_preserved_when_untargeted c4db _ (by decide)
      (Or.inr rfl)).2 9 (by decide)⟩

theorem reqInvariant_submit (rid : Nat) (vendorId : String) (amount : ℚ)
    (payerName : String) (db : DB) (h : ReqInvariant db) :
    ReqInvariant (submitRequest rid vendorId amount payerName db) := by
  intro r hr
  rcases List.mem_append.mp hr with hmem | hmem
  · exact h r hmem
  · simp at hmem
    subst hmem
    intro hptid
    exact absurd rfl hptid

theorem reqInvariant_handleCancel (rid : Nat) (db : DB)
    (hpending : ∀ r ∈ db.requests, r.id = rid → r.status = ReqStatus.pending)
    (h : ReqInvariant db) : ReqInvariant (handleCancel rid db) := by
  intro r2 hr2
  obtain ⟨r, hr, hmap⟩ := List.mem_map.mp hr2
  by_cases hid : r.id = rid
  · have hbeq : (r.id == rid) = true := beq_iff_eq.mpr hid
    rw [← hmap]
    simp only [hbeq, if_true]
    intro hptid
    have hst : r.status = ReqStatus.completed := h r hr (by simpa using hptid)
    have := hpending r hr hid
    rw [hst] at this
    cases this
  · have hbeq : (r.id == rid) = false := beq_eq_false_iff_ne.mpr hid
    rw [← hmap]
    simp only [hbeq, Bool.false_eq_true, if_false]
    exact h r hr

theorem reqInvariant_completeRequest (rid txId : Nat) (db : DB)
    (h : ReqInvariant db) : ReqInvariant (completeRequest rid txId db) := by
  intro r2 hr2
  obtain ⟨r, hr, hmap⟩ := List.mem_map.mp hr2
  by_cases hid : r.id = rid
  · have hbeq : (r.id == rid) = true := beq_iff_eq.mpr hid
    rw [← hmap]
    simp [completeRow, hbeq]
  · have hbeq : (r.id == rid) = false := beq_eq_false_iff_ne.mpr hid
    rw [← hmap]
    simp only [completeRow, hbeq]
    exact h r hr

theorem reqInvariant_commitItem (pm : PaymentMethod) (item : BatchItem)
    (db : DB) (h : ReqInvariant db) : ReqInvariant (commitItem pm item db) := by
  rcases htype : item.type
  · rcases hrid : item.requestId with _ | rid
    · rw [commitItem_req_none pm item db htype hrid]; exact h
    · rw [commitItem_req pm item db rid htype hrid]
      exact reqInvariant_completeRequest rid db.nextTxId
        ⟨db.transactions ++ [mkTransaction db.nextTxId pm item],
          db.requests, db.nextTxId + 1⟩ h
  · rw [commitItem_manual pm item db htype]; exact h

theorem reqInvariant_runBatch (pm : PaymentMethod)
    (l : List (BatchItem × Bool)) (db : DB) (h : ReqInvariant db) :
    ReqInvariant (runBatch pm l db) := by
  induction l generalizing db with
  | nil => exact h
  | cons p rest ih =>
    rcases p with ⟨a, ok⟩
    cases ok
    · rw [runBatch_cons_false]; exact ih db h
    · rw [runBatch_cons_true]
      exact ih _ (reqInvariant_commitItem pm a db h)

theorem reqInvariant_deleteTransaction (txId : Nat) (db : DB)
    (h : ReqInvariant db) : ReqInvariant (deleteTransaction txId db) := by
  intro r2 hr2
  obtain ⟨r, hr, hmap⟩ := List.mem_map.mp hr2
  rw [← hmap]
  unfold setNullRow
  by_cases hp : r.processed_transaction_id = some txId
  · have hbeq : (r.processed_transaction_id == some txId) = true :=
      beq_iff_eq.mpr hp
    simp [hbeq]
  · have hbeq : (r.processed_transaction_id == some txId) = false :=
      beq_eq_false_iff_ne.mpr hp
    simp only [hbeq]
    exact h r hr

/--
C2 counterexample: the claim says every reachable store satisfies the full
iff — non-null processed_transaction_id exactly on completed requests.
The trace submit, commit, delete-transaction is reachable and ends with a
request that is completed with a null reference: the set-null foreign key
clears the reference of a completed request without touching its status.
-/
theorem completed_with_null_reference_reachable :
    Reachable c2trace ∧
    c2trace.requests.map
        (fun r => (r.status, r.processed_transaction_id))
      = [(ReqStatus.completed, none)] := by
  constructor
  · exact Reachable.step
      (Reachable.step
        (Reachable.step Reachable.init
          (Step.submit initDB 0 "v1" 5 "pat" (by decide)))
        (Step.commit _ PaymentMethod.card [(c2item, true)]))
      (Step.deleteTx _ 0)
  · decide

/--
C2 amended: in every reachable store the forward direction of the spec
invariant holds — a request with a non-null processed_transaction_id has
status completed (only the commit path sets the reference, and it sets the
status with it).  The converse direction is refuted by the counterexample:
deleting the fulfilling transaction leaves a completed request with a null
reference.
-/
theorem reachable_nonnull_reference_implies_completed
    (db : DB) (h : Reachable db) : ReqInvariant db := by
  induction h with
  | init => intro r hr; cases hr
  | step _ hstep ih =>
    cases hstep with
    | submit rid vendorId amount payerName _ =>
      exact reqInvariant_submit rid vendorId amount payerName _ ih
    | cancel rid hpending =>
      exact reqInvariant_handleCancel rid _ hpending ih
    | commit pm l =>
      unfold processBatch
      cases hl : l.isEmpty
      · simp only [hl, Bool.false_eq_true, if_false]
        exact reqInvariant_runBatch pm l _ ih
      · simp only [hl, if_true]
        exact ih
    | deleteTx txId =>
      exact reqInvariant_deleteTransaction txId _ ih

/-- Witness for the reachability invariant at the reachable store produced
by the counterexample trace. -/
theorem reachable_nonnull_reference_witness : ReqInvariant c2trace :=
  reachable_nonnull_reference_implies_completed c2trace
    (Reachable.step
      (Reachable.step
        (Reachable.step Reachable.init
          (Step.submit initDB 0 "v1" 5 "pat" (by decide)))
        (Step.commit _ PaymentMethod.card [(c2item, true)]))
      (Step.deleteTx _ 0))

theorem filter_match_singleton (vendors : List Vendor)
    (items : List BatchItem) (r : PaymentRequest)
    (hcanon : ∀ it ∈ items, it.requestId = some r.id →
      it = mkRequestItem vendors r)
    (huniq : (items.filter (fun it => it.requestId == some r.id)).length ≤ 1)
    (hin : isRequestInBatch items r.id = true) :
    items.filter (fun it => it.requestId == some r.id)
      = [mkRequestItem vendors r] := by
  obtain ⟨x, hxmem, hx⟩ :
      ∃ it ∈ items, (it.requestId == some r.id) = true := by
    simpa [isRequestInBatch, List.any_eq_true] using hin
  have hxf : x ∈ items.filter (fun it => it.requestId == some r.id) :=
    List.mem_filter.mpr ⟨hxmem, hx⟩
  have hlen : (items.filter (fun it => it.requestId == some r.id)).length = 1 :=
    Nat.le_antisymm huniq (List.length_pos.mpr (List.ne_nil_of_mem hxf))
  obtain ⟨y, hy⟩ := List.length_eq_one.mp hlen
  have hyf : y ∈ items.filter (fun it => it.requestId == some r.id) := by
    rw [hy]; exact List.mem_singleton.mpr rfl
  obtain ⟨hymem, hymatch⟩ := List.mem_filter.mp hyf
  rw [hy, hcanon y hymem (beq_iff_eq.mp hymatch)]

/--
C8: for every batch state in which the items storing the request id are
the canonical item toggleRequest itself builds (at most one — which is how
toggleRequest maintains batches), toggling the request twice in succession
leaves the batch unchanged up to order; and — with no assumption at all —
toggling a request never affects the items not storing its id, in
particular manual items.
-/
theorem toggle_twice_leaves_batch_unchanged (vendors : List Vendor)
    (items : List BatchItem) (r : PaymentRequest)
    (hcanon : ∀ it ∈ items, it.requestId = some r.id →
      it = mkRequestItem vendors r)
    (huniq : (items.filter (fun it => it.requestId == some r.id)).length ≤ 1) :
    (toggleRequest vendors (toggleRequest vendors items r) r).Perm items ∧
    (∀ its : List BatchItem,
      (toggleRequest vendors its r).filter
          (fun it => it.requestId != some r.id)
        = its.filter (fun it => it.requestId != some r.id)) := by
  have hfeq : (fun it : BatchItem => it.requestId != some r.id)
      = (fun it : BatchItem => !(it.requestId == some r.id)) := rfl
  have hc : (mkRequestItem vendors r).requestId = some r.id := rfl
  constructor
  · by_cases hin : isRequestInBatch items r.id = true
    · -- the request is in the batch: first toggle removes, second re-adds
      have hmatch := filter_match_singleton vendors items r hcanon huniq hin
      have h1 : toggleRequest vendors items r =
          items.filter (fun it => it.requestId != some r.id) := by
        simp [toggleRequest, hin]
      have hnone : isRequestInBatch
          (items.filter (fun it => it.requestId != some r.id)) r.id = false := by
        rw [Bool.eq_false_iff]
        intro hany
        obtain ⟨x, hxmem, hx⟩ :
            ∃ it ∈ items.filter (fun it => it.requestId != some r.id),
              (it.requestId == some r.id) = true := by
          simp only [isRequestInBatch, List.any_eq_true] at hany
          exact hany
        have hxm := (List.mem_filter.mp hxmem).2
        exact absurd (beq_iff_eq.mp hx) (bne_iff_ne.mp hxm)
      have h2 : toggleRequest vendors
          (items.filter (fun it => it.requestId != some r.id)) r =
          items.filter (fun it => it.requestId != some r.id)
            ++ [mkRequestItem vendors r] := by
        simp [toggleRequest, hnone]
      rw [h1, h2]
      have hperm := List.filter_append_perm
        (fun it : BatchItem => it.requestId == some r.id) items
      rw [hmatch] at hperm
      refine List.Perm.trans List.perm_append_comm ?_
      rw [hfeq]
      exact hperm
    · -- not in the batch: first toggle appends, second removes it again
      have hin2 : isRequestInBatch items r.id = false := Bool.eq_false_iff.mpr hin
      have h1 : toggleRequest vendors items r =
          items ++ [mkRequestItem vendors r] := by
        simp [toggleRequest, hin2]
      have hback : isRequestInBatch (items ++ [mkRequestItem vendors r]) r.id
          = true := by
        simp only [isRequestInBatch, List.any_append, Bool.or_eq_true]
        exact Or.inr (by simp [isRequestInBatch, hc])
      have hself : items.filter (fun it => it.requestId != some r.id) = items := by
        refine List.filter_eq_self.mpr ?_
        intro it hit
        have hnm : ∀ x ∈ items, ¬((x.requestId == some r.id) = true) :=
          List.any_eq_false.mp hin2
        have : (it.requestId == some r.id) = false :=
          Bool.eq_false_iff.mpr (hnm it hit)
        simp [bne, this]
      rw [h1]
      have h2 : toggleRequest vendors (items ++ [mkRequestItem vendors r]) r =
          (items ++ [mkRequestItem vendors r]).filter
            (fun it => it.requestId != some r.id) := by
        simp [toggleRequest, hback]
      rw [h2, List.filter_append, hself]
      simp [hc]
  · intro its
    by_cases hin : isRequestInBatch its r.id = true
    · have h1 : toggleRequest vendors its r =
          its.filter (fun it => it.requestId != some r.id) := by
        simp [toggleRequest, hin]
      rw [h1, List.filter_filter]
      congr 1
      funext it
      rw [Bool.and_self]
    · have hin2 : isRequestInBatch its r.id = false := Bool.eq_false_iff.mpr hin
      have h1 : toggleRequest vendors its r =
          its ++ [mkRequestItem vendors r] := by
        simp [toggleRequest, hin2]
      rw [h1, List.filter_append]
      simp [hc]

/-- Witness for the toggle theorem: toggling a request into and back out of
an empty batch. -/
theorem toggle_twice_witness :
    (toggleRequest [] (toggleRequest [] []
        (⟨7, "vA", 3, "al", ReqStatus.pending, none⟩ : PaymentRequest))
      (⟨7, "vA", 3, "al", ReqStatus.pending, none⟩ : PaymentRequest)).Perm [] :=
  (toggle_twice_leaves_batch_unchanged [] []
    (⟨7, "vA", 3, "al", ReqStatus.pending, none⟩ : PaymentRequest)
    (by intro it hit; cases hit) (by decide)).1

theorem foldl_add_eq_sum {α : Type} (f : α → ℚ) (l : List α) (a : ℚ) :
    l.foldl (fun s x => s + f x) a = a + (l.map f).sum := by
  induction l generalizing a with
  | nil => simp
  | cons x l ih => simp [ih, add_assoc]

theorem keys_addVendorAmount (acc : List (String × ℚ)) (item : BatchItem)
    (hnd : (acc.map Prod.fst).Nodup) :
    ((addVendorAmount acc item).map Prod.fst).Nodup := by
  unfold addVendorAmount
  by_cases hany : acc.any (fun p => p.1 == item.vendorName) = true
  · simp only [hany, if_true]
    have hkeys : (acc.map (fun p =>
        if p.1 == item.vendorName then (p.1, p.2 + item.amount) else p)).map
          Prod.fst = acc.map Prod.fst := by
      rw [List.map_map]
      refine List.map_congr_left ?_
      intro p _
      by_cases hp : p.1 = item.vendorName <;> simp [hp]
    rw [hkeys]
    exact hnd
  · have hany2 : acc.any (fun p => p.1 == item.vendorName) = false :=
      Bool.eq_false_iff.mpr hany
    simp only [hany2, Bool.false_eq_true, if_false]
    have hnotin : item.vendorName ∉ acc.map Prod.fst := by
      intro hmem
      obtain ⟨p, hp, hpeq⟩ := List.mem_map.mp hmem
      exact (List.any_eq_false.mp hany2 p hp) (beq_iff_eq.mpr hpeq)
    simp [List.nodup_append, hnd, hnotin]

theorem sumValues_cons (p : String × ℚ) (l : List (String × ℚ)) :
    sumValues (p :: l) = p.2 + sumValues l := by
  simp [sumValues]

theorem sum_update_by_key (name : String) (amt : ℚ) :
    ∀ acc : List (String × ℚ), (acc.map Prod.fst).Nodup →
      acc.any (fun p => p.1 == name) = true →
      sumValues (acc.map (fun p => if p.1 == name then (p.1, p.2 + amt) else p))
        = sumValues acc + amt := by
  intro acc
  induction acc with
  | nil => intro _ h; cases h
  | cons p acc ih =>
    intro hnd hany
    rcases p with ⟨n, v⟩
    simp only [List.map_cons, List.nodup_cons] at hnd
    by_cases hn : n = name
    · have hb : ((n, v).1 == name) = true := beq_iff_eq.mpr hn
      have hpt : ∀ q ∈ acc,
          (if (q : String × ℚ).1 == name then (q.1, q.2 + amt) else q) = q := by
        intro q hq
        have hqn : ((q : String × ℚ).1 == name) = false := by
          refine beq_eq_false_iff_ne.mpr ?_
          intro he
          exact hnd.1 (List.mem_map.mpr ⟨q, hq, he.trans hn.symm⟩)
        simp [hqn]
      have hmapid : acc.map
          (fun q => if q.1 == name then (q.1, q.2 + amt) else q) = acc := by
        rw [List.map_congr_left hpt, List.map_id']
      rw [List.map_cons, if_pos hb, hmapid, sumValues_cons, sumValues_cons]
      dsimp
      ring
    · have hb : ((n, v).1 == name) = false := beq_eq_false_iff_ne.mpr hn
      have hany2 : acc.any (fun p => p.1 == name) = true := by
        simp only [List.any_cons, hb, Bool.false_or] at hany
        exact hany
      rw [List.map_cons, if_neg (by simp [hb]), sumValues_cons, sumValues_cons,
        ih hnd.2 hany2]
      ring

theorem sumValues_addVendorAmount (acc : List (String × ℚ)) (item : BatchItem)
    (hnd : (acc.map Prod.fst).Nodup) :
    sumValues (addVendorAmount acc item) = sumValues acc + item.amount := by
  unfold addVendorAmount
  by_cases hany : acc.any (fun p => p.1 == item.vendorName) = true
  · simp only [hany, if_true]
    exact sum_update_by_key item.vendorName item.amount acc hnd hany
  · have hany2 : acc.any (fun p => p.1 == item.vendorName) = false :=
      Bool.eq_false_iff.mpr hany
    simp only [hany2, Bool.false_eq_true, if_false]
    simp [sumValues]

theorem vendorSummary_sum_general (items : List BatchItem) :
    ∀ acc : List (String × ℚ), (acc.map Prod.fst).Nodup →
      sumValues (items.foldl addVendorAmount acc)
        = sumValues acc + (items.map (fun it => it.amount)).sum := by
  induction items with
  | nil => intro acc _; simp
  | cons item rest ih =>
    intro acc hnd
    simp only [List.foldl_cons, List.map_cons, List.sum_cons]
    rw [ih (addVendorAmount acc item) (keys_addVendorAmount acc item hnd),
      sumValues_addVendorAmount acc item hnd]
    ring

/--
C9: the displayed batch total equals the sum of all item amounts,
independently of item type (the reduction never looks at the type field) and
invariant under permutation of the items; and the per-vendor-name grouped
sums built for the batch description add up to the same total.
-/
theorem batch_total_is_sum_of_amounts (items : List BatchItem) :
    totalAmount items = (items.map (fun it => it.amount)).sum ∧
    (∀ items2 : List BatchItem, items.Perm items2 →
      totalAmount items = totalAmount items2) ∧
    sumValues (vendorSummary items) = totalAmount items := by
  have htot : ∀ l : List BatchItem,
      totalAmount l = (l.map (fun it => it.amount)).sum := by
    intro l
    have h := foldl_add_eq_sum (fun it : BatchItem => it.amount) l 0
    simpa [totalAmount] using h
  refine ⟨htot items, ?_, ?_⟩
  · intro l2 hp
    rw [htot items, htot l2]
    exact (hp.map _).sum_eq
  · rw [htot items]
    unfold vendorSummary
    have h := vendorSummary_sum_general items [] (by simp)
    simpa [sumValues] using h

/-- Witness for the batch-total theorem: permutation invariance at the
concrete two-item batch. -/
theorem batch_total_witness :
    totalAmount sampleItems = totalAmount sampleItems.reverse :=
  (batch_total_is_sum_of_amounts sampleItems).2.1 sampleItems.reverse
    (List.reverse_perm sampleItems).symm

theorem dashTotal_cons (t : Transaction) (l : List Transaction) :
    dashTotal (t :: l) = t.amount + dashTotal l := by
  unfold dashTotal
  simp only [List.foldl_cons]
  rw [foldl_add_eq_sum (fun x : Transaction => x.amount),
    foldl_add_eq_sum (fun x : Transaction => x.amount)]
  ring

theorem filterMethod_cons_eq (pm : PaymentMethod) (t : Transaction)
    (ts : List Transaction) (h : t.payment_method = pm) :
    (t :: ts).filter (fun x => x.payment_method == pm)
      = t :: ts.filter (fun x => x.payment_method == pm) := by
  rw [List.filter_cons, if_pos (beq_iff_eq.mpr h)]

theorem filterMethod_cons_ne (pm : PaymentMethod) (t : Transaction)
    (ts : List Transaction) (h : t.payment_method ≠ pm) :
    (t :: ts).filter (fun x => x.payment_method == pm)
      = ts.filter (fun x => x.payment_method == pm) := by
  rw [List.filter_cons, if_neg (by simp [beq_eq_false_iff_ne.mpr h])]

theorem dash_decomposition (ts : List Transaction) :
    dashTotal ts = cardTotal ts + cashTotal ts + otherTotal ts := by
  induction ts with
  | nil => simp [dashTotal, cardTotal, cashTotal, otherTotal]
  | cons t ts ih =>
    rcases hm : t.payment_method
    · have h1 : cardTotal (t :: ts) = t.amount + cardTotal ts := by
        unfold cardTotal
        rw [filterMethod_cons_eq _ _ _ hm, dashTotal_cons]
      have h2 : cashTotal (t :: ts) = cashTotal ts := by
        unfold cashTotal
        rw [filterMethod_cons_ne _ _ _ (by rw [hm]; intro h; cases h)]
      have h3 : otherTotal (t :: ts) = otherTotal ts := by
        unfold otherTotal
        rw [filterMethod_cons_ne _ _ _ (by rw [hm]; intro h; cases h)]
      rw [dashTotal_cons, h1, h2, h3, ih]
      ring
    · have h1 : cardTotal (t :: ts) = cardTotal ts := by
        unfold cardTotal
        rw [filterMethod_cons_ne _ _ _ (by rw [hm]; intro h; cases h)]
      have h2 : cashTotal (t :: ts) = t.amount + cashTotal ts := by
        unfold cashTotal
        rw [filterMethod_cons_eq _ _ _ hm, dashTotal_cons]
      have h3 : otherTotal (t :: ts) = otherTotal ts := by
        unfold otherTotal
        rw [filterMethod_cons_ne _ _ _ (by rw [hm]; intro h; cases h)]
      rw [dashTotal_cons, h1, h2, h3, ih]
      ring
    · have h1 : cardTotal (t :: ts) = cardTotal ts := by
        unfold cardTotal
        rw [filterMethod_cons_ne _ _ _ (by rw [hm]; intro h; cases h)]
      have h2 : cashTotal (t :: ts) = cashTotal ts := by
        unfold cashTotal
        rw [filterMethod_cons_ne _ _ _ (by rw [hm]; intro h; cases h)]
      have h3 : otherTotal (t :: ts) = t.amount + otherTotal ts := by
        unfold otherTotal
        rw [filterMethod_cons_eq _ _ _ hm, dashTotal_cons]
      rw [dashTotal_cons, h1, h2, h3, ih]
      ring

/--
C10: the Total Collected shown by the dashboard equals the card subtotal
plus the cash subtotal plus the amounts of other-method transactions;
consequently the two displayed subtotals sum to the grand total when no
other-method transaction is present, and — under the positivity of amounts
that the client-side validation enforces on every insert — only then.
-/
theorem dashboard_total_decomposition (ts : List Transaction) :
    dashTotal ts = cardTotal ts + cashTotal ts + otherTotal ts ∧
    ((∀ t ∈ ts, t.payment_method ≠ PaymentMethod.other) →
      cardTotal ts + cashTotal ts = dashTotal ts) ∧
    ((∀ t ∈ ts, 0 < t.amount) →
      cardTotal ts + cashTotal ts = dashTotal ts →
      ∀ t ∈ ts, t.payment_method ≠ PaymentMethod.other) := by
  have hdec := dash_decomposition ts
  refine ⟨hdec, ?_, ?_⟩
  · intro hno
    have hempty : ts.filter (fun x => x.payment_method == PaymentMethod.other)
        = [] := by
      rw [List.filter_eq_nil_iff]
      intro t ht
      simp [beq_eq_false_iff_ne.mpr (hno t ht)]
    have hzero : otherTotal ts = 0 := by
      unfold otherTotal
      rw [hempty]
      rfl
    rw [hdec, hzero, add_zero]
  · intro hpos heq t ht hother
    have hmem : t ∈ ts.filter (fun x => x.payment_method == PaymentMethod.other) :=
      List.mem_filter.mpr ⟨ht, beq_iff_eq.mpr hother⟩
    have hposf : 0 < otherTotal ts := by
      unfold otherTotal dashTotal
      rw [foldl_add_eq_sum (fun x : Transaction => x.amount)]
      have hsum : 0 <
          ((ts.filter (fun x => x.payment_method == PaymentMethod.other)).map
            (fun x => x.amount)).sum := by
        apply List.sum_pos
        · intro x hx
          obtain ⟨y, hy, hyx⟩ := List.mem_map.mp hx
          exact hyx ▸ hpos y (List.mem_filter.mp hy).1
        · intro hnil
          rw [List.map_eq_nil_iff] at hnil
          rw [hnil] at hmem
          cases hmem
      linarith
    have hzero : otherTotal ts = 0 := by
      rw [hdec] at heq
      linarith
    linarith

/-- Concrete transaction list for the dashboard witness: one card and one
cash transaction, both with positive amounts. -/
def sampleTxs : List Transaction :=
  [⟨0, "vA", 2, none, PaymentMethod.card⟩,
   ⟨1, "vA", 3, none, PaymentMethod.cash⟩]

/-- Witness for the dashboard theorem: on the concrete list without
other-method transactions, the two subtotals sum to the grand total. -/
theorem dashboard_total_witness :
    cardTotal sampleTxs + cashTotal sampleTxs = dashTotal sampleTxs :=
  (dashboard_total_decomposition sampleTxs).2.1 (by decide)

end PaymentTracker
